import Mathlib

/-!
Verification development for the home-directory cleanup tool
(`cleanup-home/cleanup_home.py`).  The scanner (`CleanupScanner`) is shallowly
embedded: the module-level skip/junk sets, the junk predicate, the sampled
file fingerprint, the two-pass scan (tree walk with classification, then the
size-then-digest duplicate funnel) and the per-category deletion selection.

Modelling conventions:
* bytes are `Nat`s, file contents are `List Nat`;
* an md5 digest is modelled as the exact byte sequence fed to the hasher
  (md5 is a fixed deterministic function of that sequence, so digest equality
  in the source corresponds to list equality here, under the standard
  collision-free abstraction of the hash);
* `Option` models the source's exception handling: a `none` stat models
  `filepath.stat()` raising IOError/OSError, a `none` content models a failed
  `open`/`read`; `get_file_hash` returning `none` models its empty-string
  return on any such error;
* timestamps are `Int` seconds; `timedelta(days=d)` is `d * 86400` seconds;
* Python's stable `list.sort` is modelled by a stable insertion sort
  (`sortS`), whose output is the unique stable ordering, and
  `defaultdict` grouping / `dict` assignment by association lists that keep
  keys in first-occurrence order (`addToGroup`, `setKey`).
-/

namespace Cleanup

/-- File contents and hasher inputs are byte lists. -/
abbrev Bytes := List Nat

/-- The module-level SKIP_DIRS set (directories pruned from the walk). -/
def SKIP_DIRS : List String :=
  ["Library", "Applications", ".git", "node_modules", ".ssh", ".config",
   ".Trash", ".npm", ".cargo", ".rustup", ".pyenv", ".nvm", ".rbenv",
   ".local", ".cache", ".vscode", ".idea", "venv", ".venv", "__pycache__",
   ".gradle", ".m2", ".docker", "Movies", "Music", "Pictures",
   "Photos Library.photoslibrary"]

/-- The module-level JUNK_EXTENSIONS set (matched against the lowercased
pathlib suffix of the filename). -/
def JUNK_EXTENSIONS : List String :=
  [".tmp", ".temp", ".log", ".bak", ".old", ".swp", ".swo",
   ".DS_Store", ".Thumbs.db", ".thumbs.db", ".desktop.ini"]

/-- The module-level JUNK_NAMES set (matched against the exact filename). -/
def JUNK_NAMES : List String :=
  [".DS_Store", "Thumbs.db", "desktop.ini", ".localized",
   ".CFUserTextEncoding", ".Spotlight-V100", ".fseventsd"]

/-- The module-level set of junk leading markers: a filename starting with
one of these strings is junk. -/
def JUNK_STARTS : List String := ["._", "~$", ".~"]

/-- A directory entry that is a regular file.  `stat` is the size/mtime pair
reported by `stat()` (`none` models a raised IOError/OSError); `dat` is the
byte content obtained by `open`/`read` (`none` models a read failure). -/
structure FileEnt where
  name : String
  stat : Option (Nat × Int)
  dat : Option Bytes
deriving DecidableEq

/-- A directory tree node: name, subdirectories, regular files. -/
inductive Dir where
  | mk (name : String) (subdirs : List Dir) (files : List FileEnt)

/-- The name component of a directory node. -/
def Dir.name : Dir → String
  | .mk n _ _ => n

/-- An entry of the scanner's `all_files` list: the directory parts and the
filename making up the path, the size and mtime cached from the first stat,
and the underlying filesystem entry (used when the second pass re-opens the
file by path). -/
structure FileRec where
  parts : List String
  name : String
  size : Nat
  mtime : Int
  ent : FileEnt
deriving DecidableEq

/-- The full path of a record, as the list of its components. -/
def FileRec.path (r : FileRec) : List String := r.parts ++ [r.name]

/-- The scanner configuration computed by `CleanupScanner.__init__`. -/
structure Config where
  large_threshold : Int
  old_threshold : Int
  old_days : Int
deriving DecidableEq

/-- `CleanupScanner.__init__`: `large_threshold = large_threshold_mb * 1024 * 1024`
and `old_threshold = datetime.now() - timedelta(days=old_days)`, with `now`
the current time in seconds.  The constructor performs no validation of its
arguments. -/
def mkScanner (large_threshold_mb : Int) (old_days : Int) (now : Int) : Config :=
  { large_threshold := large_threshold_mb * 1024 * 1024,
    old_threshold := now - old_days * 86400,
    old_days := old_days }

/-- `CleanupScanner.should_skip`: true when any component of the path is in
SKIP_DIRS.  The argument is the full component list of the path, exactly as
`Path.parts` yields it (so components above the scan root are included). -/
def should_skip (parts : List String) : Bool :=
  parts.any (fun part => SKIP_DIRS.contains part)

/-- Index of the last occurrence of a character in a character list
(`str.rfind` restricted to a single character; `none` for Python's -1). -/
def lastIdxOf (c : Char) : List Char → Option Nat
  | [] => none
  | x :: xs =>
    match lastIdxOf c xs with
    | some j => some (j + 1)
    | none => if x = c then some 0 else none

/-- `pathlib.PurePath.suffix` of a filename: `name[i:]` where
`i = name.rfind('.')`, if `0 < i < len(name) - 1`, else the empty string. -/
def pathSuffix (name : String) : String :=
  match lastIdxOf '.' name.toList with
  | none => ""
  | some i =>
    if 0 < i ∧ i < name.toList.length - 1 then String.mk (name.toList.drop i) else ""

/-- ASCII lowercasing of one character (`str.lower` restricted to ASCII,
which covers every junk extension and every suffix the comparison can
match). -/
def lowerChar (c : Char) : Char :=
  if 65 ≤ c.toNat ∧ c.toNat ≤ 90 then Char.ofNat (c.toNat + 32) else c

/-- `str.lower` on a string, character by character. -/
def strToLower (s : String) : String := String.mk (s.toList.map lowerChar)

/-- `str.startswith`: the first argument is a leading segment of the second. -/
def leadMatches : List Char → List Char → Bool
  | [], _ => true
  | _ :: _, [] => false
  | x :: xs, y :: ys => x = y && leadMatches xs ys

/-- `CleanupScanner.is_junk_file`, applied to the filename (the source applies
it to a `Path`, of which only `.name` and `.suffix` are inspected). -/
def is_junk_file (name : String) : Bool :=
  JUNK_NAMES.contains name
    || JUNK_EXTENSIONS.contains (strToLower (pathSuffix name))
    || name == ".DS_Store"
    || JUNK_STARTS.any (fun s => leadMatches s.toList name.toList)

/-- `str(file_size).encode()`: the ASCII bytes of the decimal size. -/
def sizeBytes (n : Nat) : Bytes := (Nat.repr n).toList.map Char.toNat

/-- Fuel-driven helper for `readChunks`: every non-empty read consumes at
least one byte, so fuel equal to the content length is always sufficient
(`readChunksF_fuel` shows any sufficient fuel gives the same chunks). -/
def readChunksF : Nat → Bytes → List Bytes
  | _, [] => []
  | 0, _ :: _ => []
  | fuel + 1, x :: rest => ((x :: rest).take 65536) :: readChunksF fuel ((x :: rest).drop 65536)

/-- The chunk sequence produced by `iter(lambda: f.read(65536), b'')`:
successive 64KB reads until the file is exhausted.  The source's loop
equation is recovered as `readChunks_eq`. -/
def readChunks (c : Bytes) : List Bytes := readChunksF c.length c

/-- `CleanupScanner.get_file_hash`.  For `quick` mode on a file whose statted
size exceeds 8192, the hasher is fed the first `read(4096)`, then, after
`seek(-4096, 2)`, the last 4096 bytes, then the decimal size string; the seek
raises (hence the empty-string return, modelled `none`) when the actual file
content is shorter than 4096 bytes.  Otherwise the whole content is fed in
64KB chunks. -/
def get_file_hash (f : FileEnt) (quick : Bool) : Option Bytes :=
  match f.stat with
  | none => none
  | some (size, _) =>
    match f.dat with
    | none => none
    | some c =>
      if quick = true ∧ 8192 < size then
        if c.length < 4096 then none
        else some (c.take 4096 ++ c.drop (c.length - 4096) ++ sizeBytes size)
      else some ((readChunks c).flatten)

/-- The mutable result/stat fields of a `CleanupScanner`. -/
structure ScanState where
  duplicates : List (Bytes × List FileRec)
  empty_files : List (List String)
  empty_dirs : List (List String)
  junk_files : List (List String)
  large_files : List (List String × Nat)
  old_files : List (List String × Int)
  files_scanned : Nat
  dirs_scanned : Nat
  total_size_scanned : Nat
  all_files : List FileRec
deriving DecidableEq

/-- The freshly initialised scanner state. -/
def initState : ScanState :=
  { duplicates := [], empty_files := [], empty_dirs := [], junk_files := [],
    large_files := [], old_files := [], files_scanned := 0, dirs_scanned := 0,
    total_size_scanned := 0, all_files := [] }

/-- The per-file body of the first pass (`scan`, the loop over `files`):
stat the file (a failed stat skips the entry), append it to `all_files`,
then classify: zero size into `empty_files`, else junk into `junk_files`,
else independently large (`size >= large_threshold`) and old
(`mtime < old_threshold`). -/
def processFile (cfg : Config) (parts : List String) (st : ScanState) (f : FileEnt) : ScanState :=
  match f.stat with
  | none => st
  | some (size, mt) =>
    let st1 : ScanState :=
      { st with
          files_scanned := st.files_scanned + 1,
          total_size_scanned := st.total_size_scanned + size,
          all_files := st.all_files ++
            [{ parts := parts, name := f.name, size := size, mtime := mt, ent := f }] }
    if size = 0 then
      { st1 with empty_files := st1.empty_files ++ [parts ++ [f.name]] }
    else if is_junk_file f.name then
      { st1 with junk_files := st1.junk_files ++ [parts ++ [f.name]] }
    else
      let st2 : ScanState :=
        if cfg.large_threshold ≤ (size : Int) then
          { st1 with large_files := st1.large_files ++ [(parts ++ [f.name], size)] }
        else st1
      if mt < cfg.old_threshold then
        { st2 with old_files := st2.old_files ++ [(parts ++ [f.name], mt)] }
      else st2

mutual

/-- One iteration of the `os.walk` loop at a visited directory: skip the
whole subtree when `should_skip` matches the directory path (the source
clears `dirs` and `continue`s, so nothing below is visited and the directory
is not counted); otherwise count the directory, record it as empty when the
name-filtered subdirectory list and the file list are both empty, process
every file, and recurse into the retained subdirectories in order. -/
def visit (cfg : Config) (parts : List String) (d : Dir) (st : ScanState) : ScanState :=
  match d with
  | .mk _ subdirs files =>
    if should_skip parts then st
    else
      let kept := subdirs.filter (fun c => !(SKIP_DIRS.contains c.name))
      let st1 := { st with dirs_scanned := st.dirs_scanned + 1 }
      let st2 :=
        if kept.isEmpty && files.isEmpty then
          { st1 with empty_dirs := st1.empty_dirs ++ [parts] }
        else st1
      let st3 := files.foldl (processFile cfg parts) st2
      visitList cfg parts subdirs st3

/-- Recursion of `os.walk` into the mutated `dirs` list: subdirectories whose
name is in SKIP_DIRS were removed by `dirs[:] = ...` and are not descended
into; the rest are walked in order. -/
def visitList (cfg : Config) (parts : List String) (ds : List Dir) (st : ScanState) : ScanState :=
  match ds with
  | [] => st
  | d :: rest =>
    let st1 := if SKIP_DIRS.contains d.name then st else visit cfg (parts ++ [d.name]) d st
    visitList cfg parts rest st1

end

/-- Stable insertion of `a` into `l`: `a` is placed before the first element
`b` with `le a b`.  With `le` the "may come first" relation of a sort key,
this is the insertion step of a stable sort. -/
def insertS {α : Type} (le : α → α → Bool) (a : α) : List α → List α
  | [] => [a]
  | b :: l => if le a b then a :: b :: l else b :: insertS le a l

/-- Stable insertion sort; models Python's stable `list.sort` with the
"may come first" Boolean relation derived from the key and direction. -/
def sortS {α : Type} (le : α → α → Bool) : List α → List α
  | [] => []
  | a :: l => insertS le a (sortS le l)

/-- `dup_files.sort(key=lambda x: x[1], reverse=True)`: stable, newest
first.  With a stable algorithm and a descending key, `a` may precede `b`
exactly when `b.mtime ≤ a.mtime`. -/
def sortByMtimeDesc (l : List FileRec) : List FileRec :=
  sortS (fun a b => decide (b.mtime ≤ a.mtime)) l

/-- `defaultdict(list)` append `gs[k].append(x)`: keys stay in
first-occurrence order, group members in append order. -/
def addToGroup {κ β : Type} [DecidableEq κ] (gs : List (κ × List β)) (k : κ) (x : β) :
    List (κ × List β) :=
  match gs with
  | [] => [(k, [x])]
  | (k1, xs) :: rest =>
    if k1 = k then (k1, xs ++ [x]) :: rest else (k1, xs) :: addToGroup rest k x

/-- Association-list lookup (Python `dict` key lookup). -/
def lookupKey {κ β : Type} [DecidableEq κ] (k : κ) : List (κ × β) → Option β
  | [] => none
  | (k1, v) :: rest => if k1 = k then some v else lookupKey k rest

/-- `dict` assignment `gs[k] = v`: replaces in place, or appends a new key. -/
def setKey {κ β : Type} [DecidableEq κ] (gs : List (κ × β)) (k : κ) (v : β) :
    List (κ × β) :=
  match gs with
  | [] => [(k, v)]
  | (k1, v1) :: rest =>
    if k1 = k then (k1, v) :: rest else (k1, v1) :: setKey rest k v

/-- Grouping a list with a `defaultdict(list)` keyed by `key`. -/
def groupByKey {α κ : Type} [DecidableEq κ] (key : α → κ) (l : List α) :
    List (κ × List α) :=
  l.foldl (fun gs x => addToGroup gs (key x) x) []

/-- The second-pass candidate filter (scan, line 183):
`file_size > 1024 and not self.is_junk_file(filepath)`. -/
def dupCandidate (r : FileRec) : Bool :=
  decide (1024 < r.size) && !(is_junk_file r.name)

/-- `size_groups`: candidates grouped by exact byte size. -/
def sizeGroups (fs : List FileRec) : List (Nat × List FileRec) :=
  groupByKey (fun r => r.size) (fs.filter dupCandidate)

/-- `hash_groups` for one size group: each member is fingerprinted in quick
mode; a falsy (failed) fingerprint drops the member, otherwise it is appended
to the group of its digest. -/
def hashGroups (files : List FileRec) : List (Bytes × List FileRec) :=
  files.foldl
    (fun gs r =>
      match get_file_hash r.ent true with
      | none => gs
      | some h => addToGroup gs h r)
    []

/-- The loop over `hash_groups.items()`: every digest group with more than
one member is sorted newest-first and assigned into `self.duplicates`. -/
def innerFold (dups : List (Bytes × List FileRec)) (hgs : List (Bytes × List FileRec)) :
    List (Bytes × List FileRec) :=
  hgs.foldl
    (fun acc q => if 1 < q.2.length then setKey acc q.1 (sortByMtimeDesc q.2) else acc)
    dups

/-- The whole second pass of `scan` (`find duplicates`): group candidates by
size, keep the size groups with more than one member (`potential_dups`),
fingerprint within each and collect the digest groups with more than one
member. -/
def scanDuplicates (fs : List FileRec) : List (Bytes × List FileRec) :=
  ((sizeGroups fs).filter (fun p => decide (1 < p.2.length))).foldl
    (fun acc p => innerFold acc (hashGroups p.2))
    []

/-- `CleanupScanner.scan`: walk the root (an absent root makes `os.walk`
yield nothing), then compute duplicates from `all_files` and apply the final
sorts (large files by size descending, old files by mtime ascending, both
stable).  `rootParts` is the component list of the root path; the root
directory's contents are given as subdirectory and file lists. -/
def scanTree (cfg : Config) (rootParts : List String)
    (root : Option (List Dir × List FileEnt)) : ScanState :=
  let st :=
    match root with
    | none => initState
    | some (ds, fs) => visit cfg rootParts (Dir.mk "" ds fs) initState
  { st with
      duplicates := scanDuplicates st.all_files,
      large_files := sortS (fun a b => decide (b.2 ≤ a.2)) st.large_files,
      old_files := sortS (fun a b => decide (a.2 ≤ b.2)) st.old_files }

/-- The duplicates branch of `get_files_for_category`: for each group in
order, every member except the first. -/
def filesToRemoveDup (dups : List (Bytes × List FileRec)) : List (List String) :=
  dups.foldl (fun acc p => acc ++ (p.2.drop 1).map FileRec.path) []

/-- `CleanupScanner.get_files_for_category` (paths selected for deletion per
category; the source stores paths where this model stores full records, so
record lists are mapped to their path component). -/
def get_files_for_category (st : ScanState) (category : String) : List (List String) :=
  if category = "1" then filesToRemoveDup st.duplicates
  else if category = "2" then st.empty_files
  else if category = "3" then st.empty_dirs
  else if category = "4" then st.junk_files
  else if category = "5" then st.large_files.map Prod.fst
  else if category = "6" then st.old_files.map Prod.fst
  else []

/-! ### Concrete filesystems used by witnesses and counterexamples -/

/-- A plain configuration: 100 MB large threshold, 120 days, "now" = 1000000 s. -/
def cfg0 : Config := mkScanner 100 120 1000000

/-- Two byte-identical candidate files (statted size 2000, shared content)
and one whose `open` fails. -/
def wEntA : FileEnt := ⟨"wa.bin", some (2000, 100), some [1, 2]⟩

def wEntB : FileEnt := ⟨"wb.bin", some (2000, 200), some [1, 2]⟩

def wEntBad : FileEnt := ⟨"wbad.bin", some (2000, 300), none⟩

def wRecA : FileRec := ⟨["home", "u"], "wa.bin", 2000, 100, wEntA⟩

def wRecB : FileRec := ⟨["home", "u"], "wb.bin", 2000, 200, wEntB⟩

def wRecBad : FileRec := ⟨["home", "u"], "wbad.bin", 2000, 300, wEntBad⟩

/-- Contents of 9193 bytes with equal first 4096 bytes and equal last 4096
bytes but different middles. -/
def wC2c1 : Bytes := List.replicate 4096 1 ++ List.replicate 1001 5 ++ List.replicate 4096 2

def wC2c2 : Bytes := List.replicate 4096 1 ++ List.replicate 1001 9 ++ List.replicate 4096 2

/-- A tree in which directory `a` contains only the empty directory `b`. -/
def cxC8Tree : List Dir := [Dir.mk "a" [Dir.mk "b" [] []] []]

/-- The C9 scenario: a.txt and b.txt byte-identical (b newer), c.tmp empty. -/
def helloBytes : Bytes := [104, 101, 108, 108, 111]

def entA9 : FileEnt := ⟨"a.txt", some (10, 100), some helloBytes⟩

def entB9 : FileEnt := ⟨"b.txt", some (10, 200), some helloBytes⟩

def entC9 : FileEnt := ⟨"c.tmp", some (0, 50), some []⟩

/-- The same scenario with a.txt and b.txt enlarged to statted size 2000
(above the 1024-byte duplicate threshold) and identical contents. -/
def bigContent : Bytes := [7, 7]

def entA9b : FileEnt := ⟨"a.txt", some (2000, 100), some bigContent⟩

def entB9b : FileEnt := ⟨"b.txt", some (2000, 200), some bigContent⟩

def recA9b : FileRec := ⟨["home", "u"], "a.txt", 2000, 100, entA9b⟩

def recB9b : FileRec := ⟨["home", "u"], "b.txt", 2000, 200, entB9b⟩

/-- An ordinary small file for the configuration-error scenarios. -/
def entC6 : FileEnt := ⟨"report.pdf", some (10, 100), some [1, 2, 3]⟩

/-! ### Properties of the stable insertion sort -/

theorem perm_insertS {α : Type} (le : α → α → Bool) (a : α) (l : List α) :
    List.Perm (insertS le a l) (a :: l) := by
  induction l with
  | nil => simp [insertS]
  | cons b l ih =>
    simp only [insertS]
    split
    · exact List.Perm.refl _
    · exact (List.Perm.cons b ih).trans (List.Perm.swap a b l)

theorem perm_sortS {α : Type} (le : α → α → Bool) (l : List α) :
    List.Perm (sortS le l) l := by
  induction l with
  | nil => simp [sortS]
  | cons a l ih => exact (perm_insertS le a (sortS le l)).trans (ih.cons a)

theorem mem_sortS {α : Type} (le : α → α → Bool) (l : List α) (x : α) :
    x ∈ sortS le l ↔ x ∈ l :=
  (perm_sortS le l).mem_iff

theorem pairwise_insertS {α : Type} (le : α → α → Bool)
    (htot : ∀ a b, le a b = false → le b a = true)
    (htrans : ∀ a b c, le a b = true → le b c = true → le a c = true)
    (a : α) (l : List α) (hl : l.Pairwise (fun x y => le x y = true)) :
    (insertS le a l).Pairwise (fun x y => le x y = true) := by
  induction l with
  | nil => simp [insertS]
  | cons b l ih =>
    rcases List.pairwise_cons.mp hl with ⟨hb, hl2⟩
    simp only [insertS]
    by_cases hle : le a b = true
    · simp only [hle, if_true]
      refine List.pairwise_cons.mpr ⟨?_, hl⟩
      intro x hx
      rcases List.mem_cons.mp hx with rfl | hx2
      · exact hle
      · exact htrans a b x hle (hb x hx2)
    · have hle2 : le a b = false := by
        cases h : le a b
        · rfl
        · exact absurd h hle
      simp only [hle2, Bool.false_eq_true, if_false]
      refine List.pairwise_cons.mpr ⟨?_, ih hl2⟩
      intro x hx
      rcases List.mem_cons.mp ((perm_insertS le a l).mem_iff.mp hx) with rfl | hx2
      · exact htot x b hle2
      · exact hb x hx2

theorem pairwise_sortS {α : Type} (le : α → α → Bool)
    (htot : ∀ a b, le a b = false → le b a = true)
    (htrans : ∀ a b c, le a b = true → le b c = true → le a c = true)
    (l : List α) : (sortS le l).Pairwise (fun x y => le x y = true) := by
  induction l with
  | nil => simp [sortS]
  | cons a l ih => exact pairwise_insertS le htot htrans a (sortS le l) ih

theorem filter_insertS {α : Type} (le : α → α → Bool) (p : α → Bool)
    (hp : ∀ a b, p a = true → p b = true → le a b = true)
    (a : α) (l : List α) :
    (insertS le a l).filter p = (a :: l).filter p := by
  induction l with
  | nil => simp [insertS]
  | cons b l ih =>
    simp only [insertS]
    by_cases hle : le a b = true
    · simp [hle]
    · have hle2 : le a b = false := by
        cases h : le a b
        · rfl
        · exact absurd h hle
      simp only [hle2, Bool.false_eq_true, if_false]
      by_cases hpa : p a = true
      · have hpb : p b = false := by
          cases h : p b
          · rfl
          · exact absurd (hp a b hpa h) hle
        simp [List.filter_cons, hpa, hpb, ih]
      · have hpa2 : p a = false := by
          cases h : p a
          · rfl
          · exact absurd h hpa
        simp [List.filter_cons, hpa2, ih]

theorem filter_sortS {α : Type} (le : α → α → Bool) (p : α → Bool)
    (hp : ∀ a b, p a = true → p b = true → le a b = true)
    (l : List α) : (sortS le l).filter p = l.filter p := by
  induction l with
  | nil => simp [sortS]
  | cons a l ih =>
    calc (sortS le (a :: l)).filter p
        = ((a :: sortS le l).filter p) := filter_insertS le p hp a (sortS le l)
      _ = (a :: l).filter p := by
          by_cases hpa : p a = true
          · simp [List.filter_cons, hpa, ih]
          · have hpa2 : p a = false := by
              cases h : p a
              · rfl
              · exact absurd h hpa
            simp [List.filter_cons, hpa2, ih]

/-! ### The chunked read reassembles the whole content -/

theorem readChunksF_fuel :
    ∀ (f1 f2 : Nat) (c : Bytes), c.length ≤ f1 → c.length ≤ f2 →
      readChunksF f1 c = readChunksF f2 c := by
  intro f1
  induction f1 with
  | zero =>
    intro f2 c h1 h2
    cases c with
    | nil => cases f2 <;> rfl
    | cons x rest => simp at h1
  | succ f1 ih =>
    intro f2 c h1 h2
    cases c with
    | nil => cases f2 <;> rfl
    | cons x rest =>
      cases f2 with
      | zero => simp at h2
      | succ f2 =>
        simp only [readChunksF]
        congr 1
        apply ih
        · simp only [List.length_drop, List.length_cons] at h1 ⊢
          omega
        · simp only [List.length_drop, List.length_cons] at h2 ⊢
          omega

theorem readChunks_eq (c : Bytes) :
    readChunks c = if c = [] then [] else c.take 65536 :: readChunks (c.drop 65536) := by
  cases c with
  | nil => rfl
  | cons x rest =>
    rw [if_neg (List.cons_ne_nil x rest)]
    simp only [readChunks, List.length_cons, readChunksF]
    congr 1
    apply readChunksF_fuel
    · simp only [List.length_drop, List.length_cons]
      omega
    · exact Nat.le_refl _

theorem readChunksF_flatten :
    ∀ (fuel : Nat) (c : Bytes), c.length ≤ fuel → (readChunksF fuel c).flatten = c := by
  intro fuel
  induction fuel with
  | zero =>
    intro c hc
    cases c with
    | nil => rfl
    | cons x rest => simp at hc
  | succ fuel ih =>
    intro c hc
    cases c with
    | nil => rfl
    | cons x rest =>
      simp only [readChunksF, List.flatten_cons]
      rw [ih _ (by simp only [List.length_drop, List.length_cons] at hc ⊢; omega),
        List.take_append_drop]

theorem readChunks_flatten (c : Bytes) : (readChunks c).flatten = c :=
  readChunksF_flatten c.length c (Nat.le_refl _)

/-! ### Properties of the association-list grouping -/

theorem lookupKey_addToGroup_self {κ β : Type} [DecidableEq κ]
    (gs : List (κ × List β)) (k : κ) (x : β) :
    lookupKey k (addToGroup gs k x) = some ((lookupKey k gs).getD [] ++ [x]) := by
  induction gs with
  | nil => simp [addToGroup, lookupKey]
  | cons e rest ih =>
    obtain ⟨k1, xs⟩ := e
    by_cases h : k1 = k
    · subst h
      simp [addToGroup, lookupKey]
    · simp [addToGroup, lookupKey, h, ih]

theorem lookupKey_addToGroup_ne {κ β : Type} [DecidableEq κ]
    (gs : List (κ × List β)) (k k2 : κ) (x : β) (hne : k2 ≠ k) :
    lookupKey k2 (addToGroup gs k x) = lookupKey k2 gs := by
  have hne2 : ¬ k = k2 := fun hh => hne hh.symm
  induction gs with
  | nil => simp [addToGroup, lookupKey, hne2]
  | cons e rest ih =>
    obtain ⟨k1, xs⟩ := e
    by_cases h : k1 = k
    · simp [addToGroup, lookupKey, h, hne2]
    · simp [addToGroup, lookupKey, h, ih]

theorem lookupKey_eq_none_iff {κ β : Type} [DecidableEq κ]
    (gs : List (κ × β)) (k : κ) :
    lookupKey k gs = none ↔ k ∉ gs.map Prod.fst := by
  induction gs with
  | nil => simp [lookupKey]
  | cons e rest ih =>
    obtain ⟨k1, v⟩ := e
    by_cases h : k1 = k
    · subst h
      simp [lookupKey]
    · have hne : ¬ k = k1 := fun hh => h hh.symm
      simp [lookupKey, h, ih, hne]

theorem keys_addToGroup_none {κ β : Type} [DecidableEq κ]
    (gs : List (κ × List β)) (k : κ) (x : β) (h : lookupKey k gs = none) :
    (addToGroup gs k x).map Prod.fst = gs.map Prod.fst ++ [k] := by
  induction gs with
  | nil => simp [addToGroup]
  | cons e rest ih =>
    obtain ⟨k1, xs⟩ := e
    by_cases hk : k1 = k
    · subst hk
      simp [lookupKey] at h
    · have h2 : lookupKey k rest = none := by
        simpa [lookupKey, hk] using h
      simp [addToGroup, hk, ih h2]

theorem keys_addToGroup_some {κ β : Type} [DecidableEq κ]
    (gs : List (κ × List β)) (k : κ) (x : β) (h : lookupKey k gs ≠ none) :
    (addToGroup gs k x).map Prod.fst = gs.map Prod.fst := by
  induction gs with
  | nil => simp [lookupKey] at h
  | cons e rest ih =>
    obtain ⟨k1, xs⟩ := e
    by_cases hk : k1 = k
    · simp [addToGroup, hk]
    · have h2 : lookupKey k rest ≠ none := by
        simpa [lookupKey, hk] using h
      simp [addToGroup, hk, ih h2]

theorem nodupKeys_addToGroup {κ β : Type} [DecidableEq κ]
    (gs : List (κ × List β)) (k : κ) (x : β)
    (h : (gs.map Prod.fst).Nodup) :
    ((addToGroup gs k x).map Prod.fst).Nodup := by
  cases hlk : lookupKey k gs with
  | none =>
    rw [keys_addToGroup_none gs k x hlk]
    have hk : k ∉ gs.map Prod.fst := (lookupKey_eq_none_iff gs k).mp hlk
    rw [List.nodup_append]
    refine ⟨h, List.nodup_singleton k, ?_⟩
    intro a ha hb
    rw [List.mem_singleton] at hb
    subst hb
    exact hk ha
  | some v =>
    rw [keys_addToGroup_some gs k x (by simp [hlk])]
    exact h

theorem mem_lookupKey_of_nodup {κ β : Type} [DecidableEq κ]
    (gs : List (κ × β)) (h : (gs.map Prod.fst).Nodup) (k : κ) (v : β) :
    (k, v) ∈ gs ↔ lookupKey k gs = some v := by
  induction gs with
  | nil => simp [lookupKey]
  | cons e rest ih =>
    obtain ⟨k1, v1⟩ := e
    have hsplit : k1 ∉ rest.map Prod.fst ∧ (rest.map Prod.fst).Nodup := by
      rw [List.map_cons, List.nodup_cons] at h
      exact h
    by_cases hk : k1 = k
    · subst hk
      simp only [lookupKey, if_pos rfl, List.mem_cons]
      constructor
      · rintro (hh | hh)
        · have hinj := (Prod.mk.injEq _ _ _ _).mp hh
          simp [hinj.2]
        · exact absurd (List.mem_map.mpr ⟨(k1, v), hh, rfl⟩) hsplit.1
      · intro hh
        have hv : v1 = v := Option.some_inj.mp hh
        subst hv
        exact Or.inl rfl
    · simp only [lookupKey, if_neg hk, List.mem_cons]
      constructor
      · rintro (hh | hh)
        · exfalso
          have := (Prod.mk.injEq _ _ _ _).mp hh
          exact hk this.1.symm
        · exact (ih hsplit.2).mp hh
      · intro hh
        exact Or.inr ((ih hsplit.2).mpr hh)

theorem eq_of_mem_nodupKeys {κ β : Type} [DecidableEq κ]
    (gs : List (κ × β)) (h : (gs.map Prod.fst).Nodup) (k : κ) (v1 v2 : β)
    (h1 : (k, v1) ∈ gs) (h2 : (k, v2) ∈ gs) : v1 = v2 := by
  have e1 := (mem_lookupKey_of_nodup gs h k v1).mp h1
  have e2 := (mem_lookupKey_of_nodup gs h k v2).mp h2
  rw [e1] at e2
  exact Option.some_inj.mp e2

theorem mem_setKey {κ β : Type} [DecidableEq κ]
    (gs : List (κ × β)) (k : κ) (v : β) :
    ∀ e ∈ setKey gs k v, e ∈ gs ∨ e = (k, v) := by
  induction gs with
  | nil =>
    intro e he
    simp only [setKey, List.mem_singleton] at he
    exact Or.inr he
  | cons e1 rest ih =>
    obtain ⟨k1, v1⟩ := e1
    intro e he
    by_cases h : k1 = k
    · subst h
      simp only [setKey, eq_self_iff_true, if_true, List.mem_cons] at he
      rcases he with hh | hh
      · exact Or.inr hh
      · exact Or.inl (List.mem_cons_of_mem _ hh)
    · simp only [setKey, if_neg h, List.mem_cons] at he
      rcases he with hh | hh
      · exact Or.inl (by simp [hh])
      · rcases ih e hh with h2 | h2
        · exact Or.inl (List.mem_cons_of_mem _ h2)
        · exact Or.inr h2

theorem keys_setKey_sub {κ β : Type} [DecidableEq κ]
    (gs : List (κ × β)) (k : κ) (v : β) :
    ∀ k2 ∈ (setKey gs k v).map Prod.fst, k2 ∈ gs.map Prod.fst ∨ k2 = k := by
  intro k2 hk2
  rcases List.mem_map.mp hk2 with ⟨e, he, rfl⟩
  rcases mem_setKey gs k v e he with h | h
  · exact Or.inl (List.mem_map.mpr ⟨e, h, rfl⟩)
  · exact Or.inr (by rw [h])

theorem nodupKeys_setKey {κ β : Type} [DecidableEq κ]
    (gs : List (κ × β)) (k : κ) (v : β)
    (h : (gs.map Prod.fst).Nodup) :
    ((setKey gs k v).map Prod.fst).Nodup := by
  induction gs with
  | nil => simp [setKey]
  | cons e1 rest ih =>
    obtain ⟨k1, v1⟩ := e1
    have hsplit : k1 ∉ rest.map Prod.fst ∧ (rest.map Prod.fst).Nodup := by
      rw [List.map_cons, List.nodup_cons] at h
      exact h
    by_cases hk : k1 = k
    · simp only [setKey, if_pos hk, List.map_cons]
      exact List.nodup_cons.mpr hsplit
    · simp only [setKey, if_neg hk, List.map_cons]
      refine List.nodup_cons.mpr ⟨?_, ih hsplit.2⟩
      intro hmem
      rcases keys_setKey_sub rest k v k1 hmem with hh | hh
      · exact hsplit.1 hh
      · exact hk hh

theorem groupByKey_append_single {α κ : Type} [DecidableEq κ]
    (key : α → κ) (l : List α) (x : α) :
    groupByKey key (l ++ [x]) = addToGroup (groupByKey key l) (key x) x := by
  simp [groupByKey, List.foldl_append]

theorem lookupKey_groupByKey_eq_none {α κ : Type} [DecidableEq κ]
    (key : α → κ) (l : List α) (k : κ)
    (hf : l.filter (fun a => decide (key a = k)) = []) :
    lookupKey k (groupByKey key l) = none := by
  induction l using List.reverseRecOn with
  | nil => simp [groupByKey, lookupKey]
  | append_singleton l x ih =>
    rw [List.filter_append, List.append_eq_nil] at hf
    have hk : key x ≠ k := by
      intro hh
      have : List.filter (fun a => decide (key a = k)) [x] = [x] := by
        simp [hh]
      rw [this] at hf
      exact List.cons_ne_nil x [] hf.2
    rw [groupByKey_append_single,
      lookupKey_addToGroup_ne _ _ _ _ (fun hh => hk hh.symm)]
    exact ih hf.1

theorem lookupKey_groupByKey_eq_some {α κ : Type} [DecidableEq κ]
    (key : α → κ) (l : List α) (k : κ) :
    l.filter (fun a => decide (key a = k)) ≠ [] →
      lookupKey k (groupByKey key l) = some (l.filter (fun a => decide (key a = k))) := by
  induction l using List.reverseRecOn with
  | nil =>
    intro hf
    simp at hf
  | append_singleton l x ih =>
    intro hf
    rw [groupByKey_append_single]
    by_cases hk : key x = k
    · subst hk
      rw [lookupKey_addToGroup_self]
      by_cases hfl : l.filter (fun a => decide (key a = key x)) = []
      · rw [lookupKey_groupByKey_eq_none key l (key x) hfl]
        simp [List.filter_append, hfl]
      · rw [ih hfl]
        simp [List.filter_append]
    · rw [lookupKey_addToGroup_ne _ _ _ _ (fun hh => hk hh.symm)]
      have hfl : l.filter (fun a => decide (key a = k)) ≠ [] := by
        intro h0
        apply hf
        simp [List.filter_append, h0, hk]
      rw [ih hfl]
      simp [List.filter_append, hk]

theorem nodupKeys_groupByKey {α κ : Type} [DecidableEq κ]
    (key : α → κ) (l : List α) :
    ((groupByKey key l).map Prod.fst).Nodup := by
  induction l using List.reverseRecOn with
  | nil => simp [groupByKey]
  | append_singleton l x ih =>
    rw [groupByKey_append_single]
    exact nodupKeys_addToGroup _ _ _ ih

theorem mem_groupByKey {α κ : Type} [DecidableEq κ]
    (key : α → κ) (l : List α) (k : κ) (g : List α) :
    (k, g) ∈ groupByKey key l ↔
      (g = l.filter (fun a => decide (key a = k)) ∧ g ≠ []) := by
  rw [mem_lookupKey_of_nodup _ (nodupKeys_groupByKey key l)]
  by_cases hf : l.filter (fun a => decide (key a = k)) = []
  · rw [lookupKey_groupByKey_eq_none key l k hf]
    constructor
    · intro hh
      cases hh
    · rintro ⟨rfl, hne⟩
      exact absurd hf hne
  · rw [lookupKey_groupByKey_eq_some key l k hf]
    constructor
    · intro hh
      have he := Option.some_inj.mp hh
      refine ⟨he.symm, ?_⟩
      intro h0
      exact hf (he.trans h0)
    · rintro ⟨rfl, _⟩
      rfl

/-! ### Characterisation of the digest grouping -/

theorem hashGroups_append_none (files : List FileRec) (x : FileRec)
    (hx : get_file_hash x.ent true = none) :
    hashGroups (files ++ [x]) = hashGroups files := by
  simp [hashGroups, List.foldl_append, hx]

theorem hashGroups_append_some (files : List FileRec) (x : FileRec) (hv : Bytes)
    (hx : get_file_hash x.ent true = some hv) :
    hashGroups (files ++ [x]) = addToGroup (hashGroups files) hv x := by
  simp [hashGroups, List.foldl_append, hx]

theorem lookupKey_hashGroups_eq_none (files : List FileRec) (h : Bytes)
    (hf : files.filter (fun r => decide (get_file_hash r.ent true = some h)) = []) :
    lookupKey h (hashGroups files) = none := by
  induction files using List.reverseRecOn with
  | nil => simp [hashGroups, lookupKey]
  | append_singleton files x ih =>
    rw [List.filter_append, List.append_eq_nil] at hf
    cases hx : get_file_hash x.ent true with
    | none =>
      rw [hashGroups_append_none files x hx]
      exact ih hf.1
    | some hv =>
      have hvne : hv ≠ h := by
        intro hh
        subst hh
        have hfx : List.filter (fun r => decide (get_file_hash r.ent true = some hv)) [x] = [x] := by
          simp [hx]
        rw [hfx] at hf
        exact List.cons_ne_nil x [] hf.2
      rw [hashGroups_append_some files x hv hx,
        lookupKey_addToGroup_ne _ _ _ _ (fun hh => hvne hh.symm)]
      exact ih hf.1

theorem lookupKey_hashGroups_eq_some (files : List FileRec) (h : Bytes) :
    files.filter (fun r => decide (get_file_hash r.ent true = some h)) ≠ [] →
      lookupKey h (hashGroups files) =
        some (files.filter (fun r => decide (get_file_hash r.ent true = some h))) := by
  induction files using List.reverseRecOn with
  | nil =>
    intro hf
    simp at hf
  | append_singleton files x ih =>
    intro hf
    cases hx : get_file_hash x.ent true with
    | none =>
      rw [hashGroups_append_none files x hx]
      have hfx : List.filter (fun r => decide (get_file_hash r.ent true = some h)) [x] = [] := by
        simp [hx]
      rw [List.filter_append, hfx, List.append_nil] at hf ⊢
      exact ih hf
    | some hv =>
      by_cases hvh : hv = h
      · subst hvh
        rw [hashGroups_append_some files x hv hx, lookupKey_addToGroup_self]
        have hfx : List.filter (fun r => decide (get_file_hash r.ent true = some hv)) [x] = [x] := by
          simp [hx]
        by_cases hfl : files.filter (fun r => decide (get_file_hash r.ent true = some hv)) = []
        · rw [lookupKey_hashGroups_eq_none files hv hfl, List.filter_append, hfx, hfl]
          simp
        · rw [ih hfl, List.filter_append, hfx]
          simp
      · rw [hashGroups_append_some files x hv hx,
          lookupKey_addToGroup_ne _ _ _ _ (fun hh => hvh hh.symm)]
        have hfx : List.filter (fun r => decide (get_file_hash r.ent true = some h)) [x] = [] := by
          simp [hx, hvh]
        rw [List.filter_append, hfx, List.append_nil] at hf ⊢
        exact ih hf

theorem nodupKeys_hashGroups (files : List FileRec) :
    ((hashGroups files).map Prod.fst).Nodup := by
  induction files using List.reverseRecOn with
  | nil => simp [hashGroups]
  | append_singleton files x ih =>
    cases hx : get_file_hash x.ent true with
    | none =>
      rw [hashGroups_append_none files x hx]
      exact ih
    | some hv =>
      rw [hashGroups_append_some files x hv hx]
      exact nodupKeys_addToGroup _ _ _ ih

theorem mem_hashGroups (files : List FileRec) (h : Bytes) (g : List FileRec) :
    (h, g) ∈ hashGroups files ↔
      (g = files.filter (fun r => decide (get_file_hash r.ent true = some h)) ∧ g ≠ []) := by
  rw [mem_lookupKey_of_nodup _ (nodupKeys_hashGroups files)]
  by_cases hf : files.filter (fun r => decide (get_file_hash r.ent true = some h)) = []
  · rw [lookupKey_hashGroups_eq_none files h hf]
    constructor
    · intro hh
      cases hh
    · rintro ⟨rfl, hne⟩
      exact absurd hf hne
  · rw [lookupKey_hashGroups_eq_some files h hf]
    constructor
    · intro hh
      have he := Option.some_inj.mp hh
      exact ⟨he.symm, fun h0 => hf (he.trans h0)⟩
    · rintro ⟨rfl, _⟩
      rfl

/-! ### Invariants of the duplicate map construction -/

theorem innerFold_nil (dups : List (Bytes × List FileRec)) : innerFold dups [] = dups := rfl

theorem innerFold_cons (dups : List (Bytes × List FileRec))
    (q : Bytes × List FileRec) (rest : List (Bytes × List FileRec)) :
    innerFold dups (q :: rest) =
      innerFold (if 1 < q.2.length then setKey dups q.1 (sortByMtimeDesc q.2) else dups) rest := rfl

theorem innerFold_inv (P : Bytes × List FileRec → Prop)
    (hgs : List (Bytes × List FileRec))
    (hstep : ∀ q ∈ hgs, 1 < q.2.length → P (q.1, sortByMtimeDesc q.2)) :
    ∀ dups, (∀ e ∈ dups, P e) → ∀ e ∈ innerFold dups hgs, P e := by
  induction hgs with
  | nil =>
    intro dups hd e he
    rw [innerFold_nil] at he
    exact hd e he
  | cons q rest ih =>
    intro dups hd e he
    rw [innerFold_cons] at he
    refine ih (fun q2 hq2 h2 => hstep q2 (List.mem_cons_of_mem _ hq2) h2) _ ?_ e he
    intro e2 he2
    by_cases hq : 1 < q.2.length
    · rw [if_pos hq] at he2
      rcases mem_setKey _ _ _ e2 he2 with h2 | h2
      · exact hd e2 h2
      · rw [h2]
        exact hstep q (List.mem_cons_self q rest) hq
    · rw [if_neg hq] at he2
      exact hd e2 he2

theorem scanDuplicates_inv (P : Bytes × List FileRec → Prop) (fs : List FileRec)
    (hstep : ∀ s files h g, (s, files) ∈ sizeGroups fs → 1 < files.length →
      (h, g) ∈ hashGroups files → 1 < g.length → P (h, sortByMtimeDesc g)) :
    ∀ e ∈ scanDuplicates fs, P e := by
  have main : ∀ (L : List (Nat × List FileRec)),
      (∀ p ∈ L, p ∈ sizeGroups fs ∧ 1 < p.2.length) →
      ∀ dups, (∀ e ∈ dups, P e) →
      ∀ e ∈ L.foldl (fun acc p => innerFold acc (hashGroups p.2)) dups, P e := by
    intro L
    induction L with
    | nil =>
      intro _ dups hd e he
      rw [List.foldl_nil] at he
      exact hd e he
    | cons p rest ih =>
      intro hL dups hd e he
      rw [List.foldl_cons] at he
      refine ih (fun p2 hp2 => hL p2 (List.mem_cons_of_mem _ hp2)) _ ?_ e he
      intro e2 he2
      refine innerFold_inv P (hashGroups p.2) ?_ dups hd e2 he2
      intro q hq hlen
      obtain ⟨hp, hplen⟩ := hL p (List.mem_cons_self p rest)
      exact hstep p.1 p.2 q.1 q.2 hp hplen hq hlen
  intro e he
  have he2 : e ∈ ((sizeGroups fs).filter (fun p => decide (1 < p.2.length))).foldl
      (fun acc p => innerFold acc (hashGroups p.2)) [] := he
  refine main ((sizeGroups fs).filter (fun p => decide (1 < p.2.length))) ?_ [] ?_ e he2
  · intro p hp
    rcases List.mem_filter.mp hp with ⟨h1, h2⟩
    exact ⟨h1, by simpa using h2⟩
  · intro e2 he2
    exact absurd he2 (List.not_mem_nil e2)

theorem scanDuplicates_mem (fs : List FileRec) (h : Bytes) (G : List FileRec)
    (hmem : (h, G) ∈ scanDuplicates fs) :
    ∃ s files g, (s, files) ∈ sizeGroups fs ∧ 1 < files.length ∧
      (h, g) ∈ hashGroups files ∧ 1 < g.length ∧ G = sortByMtimeDesc g := by
  have hinv := scanDuplicates_inv
    (fun e => ∃ s files g, (s, files) ∈ sizeGroups fs ∧ 1 < files.length ∧
      (e.1, g) ∈ hashGroups files ∧ 1 < g.length ∧ e.2 = sortByMtimeDesc g)
    fs ?_ (h, G) hmem
  · exact hinv
  · intro s files hh g h1 h2 h3 h4
    exact ⟨s, files, g, h1, h2, h3, h4, rfl⟩

theorem nodupKeys_innerFold (dups hgs : List (Bytes × List FileRec))
    (h : (dups.map Prod.fst).Nodup) :
    ((innerFold dups hgs).map Prod.fst).Nodup := by
  induction hgs generalizing dups with
  | nil => exact h
  | cons q rest ih =>
    rw [innerFold_cons]
    apply ih
    by_cases hq : 1 < q.2.length
    · rw [if_pos hq]
      exact nodupKeys_setKey _ _ _ h
    · rw [if_neg hq]
      exact h

theorem nodupKeys_scanDuplicates (fs : List FileRec) :
    ((scanDuplicates fs).map Prod.fst).Nodup := by
  have main : ∀ (L : List (Nat × List FileRec)) (dups : List (Bytes × List FileRec)),
      (dups.map Prod.fst).Nodup →
      ((L.foldl (fun acc p => innerFold acc (hashGroups p.2)) dups).map Prod.fst).Nodup := by
    intro L
    induction L with
    | nil =>
      intro dups h
      rw [List.foldl_nil]
      exact h
    | cons p rest ih =>
      intro dups h
      rw [List.foldl_cons]
      exact ih _ (nodupKeys_innerFold _ _ h)
  simpa [scanDuplicates] using main _ [] (by simp)

/-! ### Walker lemmas -/

theorem processFile_empty_dirs (cfg : Config) (parts : List String)
    (st : ScanState) (f : FileEnt) :
    (processFile cfg parts st f).empty_dirs = st.empty_dirs := by
  cases hstat : f.stat with
  | none => simp [processFile, hstat]
  | some p =>
    obtain ⟨size, mt⟩ := p
    simp only [processFile, hstat]
    split_ifs <;> rfl

theorem foldl_processFile_empty_dirs (cfg : Config) (parts : List String)
    (files : List FileEnt) (st : ScanState) :
    (files.foldl (processFile cfg parts) st).empty_dirs = st.empty_dirs := by
  induction files generalizing st with
  | nil => rfl
  | cons f rest ih => rw [List.foldl_cons, ih, processFile_empty_dirs]

theorem visit_skip (cfg : Config) (parts : List String) (d : Dir) (st : ScanState)
    (h : should_skip parts = true) :
    visit cfg parts d st = st := by
  cases d with
  | mk nm subdirs files =>
    rw [visit]
    simp [h]

theorem visit_eq (cfg : Config) (parts : List String) (nm : String)
    (subdirs : List Dir) (files : List FileEnt) (st : ScanState)
    (h : should_skip parts = false) :
    visit cfg parts (Dir.mk nm subdirs files) st =
      visitList cfg parts subdirs
        (files.foldl (processFile cfg parts)
          (if ((subdirs.filter fun c => !(SKIP_DIRS.contains c.name)).isEmpty
                && files.isEmpty) = true
           then { st with dirs_scanned := st.dirs_scanned + 1,
                          empty_dirs := st.empty_dirs ++ [parts] }
           else { st with dirs_scanned := st.dirs_scanned + 1 })) := by
  rw [visit]
  simp only [h, Bool.false_eq_true, if_false]

theorem visitList_nil (cfg : Config) (parts : List String) (st : ScanState) :
    visitList cfg parts [] st = st := by
  rw [visitList]

theorem visitList_cons (cfg : Config) (parts : List String) (d : Dir)
    (rest : List Dir) (st : ScanState) :
    visitList cfg parts (d :: rest) st =
      visitList cfg parts rest
        (if SKIP_DIRS.contains d.name then st else visit cfg (parts ++ [d.name]) d st) := by
  rw [visitList]

theorem empty_dirs_extend :
    ∀ n : Nat,
      (∀ (cfg : Config) (parts : List String) (d : Dir) (st : ScanState), sizeOf d ≤ n →
        ∃ L, (visit cfg parts d st).empty_dirs = st.empty_dirs ++ L ∧
          ∀ q ∈ L, parts.length ≤ q.length) ∧
      (∀ (cfg : Config) (parts : List String) (ds : List Dir) (st : ScanState), sizeOf ds ≤ n →
        ∃ L, (visitList cfg parts ds st).empty_dirs = st.empty_dirs ++ L ∧
          ∀ q ∈ L, parts.length + 1 ≤ q.length) := by
  intro n
  induction n with
  | zero =>
    constructor
    · intro cfg parts d st hle
      exfalso
      cases d with
      | mk nm subdirs files =>
        have hs := Dir.mk.sizeOf_spec nm subdirs files
        omega
    · intro cfg parts ds st hle
      cases ds with
      | nil =>
        refine ⟨[], ?_, ?_⟩
        · rw [visitList_nil, List.append_nil]
        · intro q hq
          exact absurd hq (List.not_mem_nil q)
      | cons d rest =>
        exfalso
        have hs := List.cons.sizeOf_spec d rest
        omega
  | succ n ih =>
    obtain ⟨ihd, ihds⟩ := ih
    constructor
    · intro cfg parts d st hle
      cases d with
      | mk nm subdirs files =>
        cases hskip : should_skip parts with
        | true =>
          refine ⟨[], ?_, ?_⟩
          · rw [visit_skip cfg parts _ st hskip, List.append_nil]
          · intro q hq
            exact absurd hq (List.not_mem_nil q)
        | false =>
          have hsub : sizeOf subdirs ≤ n := by
            have hs := Dir.mk.sizeOf_spec nm subdirs files
            omega
          rw [visit_eq cfg parts nm subdirs files st hskip]
          by_cases hcond : ((subdirs.filter fun c => !(SKIP_DIRS.contains c.name)).isEmpty
              && files.isEmpty) = true
          · rw [if_pos hcond]
            obtain ⟨L2, hL2, hlen2⟩ := ihds cfg parts subdirs
              (files.foldl (processFile cfg parts)
                { st with dirs_scanned := st.dirs_scanned + 1,
                          empty_dirs := st.empty_dirs ++ [parts] }) hsub
            refine ⟨[parts] ++ L2, ?_, ?_⟩
            · rw [hL2, foldl_processFile_empty_dirs, List.append_assoc]
            · intro q hq
              rcases List.mem_append.mp hq with hq1 | hq2
              · rw [List.mem_singleton] at hq1
                subst hq1
                exact Nat.le_refl _
              · exact Nat.le_of_succ_le (hlen2 q hq2)
          · rw [if_neg hcond]
            obtain ⟨L2, hL2, hlen2⟩ := ihds cfg parts subdirs
              (files.foldl (processFile cfg parts)
                { st with dirs_scanned := st.dirs_scanned + 1 }) hsub
            refine ⟨L2, ?_, ?_⟩
            · rw [hL2, foldl_processFile_empty_dirs]
            · intro q hq
              exact Nat.le_of_succ_le (hlen2 q hq)
    · intro cfg parts ds st hle
      cases ds with
      | nil =>
        refine ⟨[], ?_, ?_⟩
        · rw [visitList_nil, List.append_nil]
        · intro q hq
          exact absurd hq (List.not_mem_nil q)
      | cons d rest =>
        have hsz : sizeOf d ≤ n ∧ sizeOf rest ≤ n := by
          have hs := List.cons.sizeOf_spec d rest
          omega
        rw [visitList_cons]
        cases hskipd : SKIP_DIRS.contains d.name with
        | true =>
          rw [if_pos rfl]
          exact ihds cfg parts rest st hsz.2
        | false =>
          rw [if_neg Bool.false_ne_true]
          obtain ⟨L1, hL1, hlen1⟩ := ihd cfg (parts ++ [d.name]) d st hsz.1
          obtain ⟨L2, hL2, hlen2⟩ := ihds cfg parts rest
            (visit cfg (parts ++ [d.name]) d st) hsz.2
          refine ⟨L1 ++ L2, ?_, ?_⟩
          · rw [hL2, hL1, List.append_assoc]
          · intro q hq
            rcases List.mem_append.mp hq with hq1 | hq2
            · have hq3 := hlen1 q hq1
              rw [List.length_append, List.length_singleton] at hq3
              exact hq3
            · exact hlen2 q hq2

/-! ### Assorted helper lemmas about the scanner -/

theorem mem_sortByMtimeDesc (l : List FileRec) (x : FileRec) :
    x ∈ sortByMtimeDesc l ↔ x ∈ l :=
  mem_sortS _ l x

theorem dupCandidate_iff (r : FileRec) :
    dupCandidate r = true ↔ 1024 < r.size ∧ is_junk_file r.name = false := by
  rw [dupCandidate, Bool.and_eq_true]
  constructor
  · rintro ⟨h1, h2⟩
    refine ⟨of_decide_eq_true h1, ?_⟩
    cases hval : is_junk_file r.name
    · rfl
    · rw [hval] at h2
      simp at h2
  · rintro ⟨h1, h2⟩
    refine ⟨decide_eq_true h1, ?_⟩
    rw [h2]
    rfl

theorem get_file_hash_full (nm : String) (size : Nat) (mt : Int) (c : Bytes)
    (quick : Bool) (hle : size ≤ 8192) :
    get_file_hash ⟨nm, some (size, mt), some c⟩ quick = some c := by
  have hcond : ¬ (quick = true ∧ 8192 < size) := by
    rintro ⟨_, h2⟩
    omega
  simp only [get_file_hash]
  rw [if_neg hcond, readChunks_flatten]

theorem get_file_hash_quick (nm : String) (size : Nat) (mt : Int) (c : Bytes)
    (hgt : 8192 < size) (hlen : c.length = size) :
    get_file_hash ⟨nm, some (size, mt), some c⟩ true =
      some (c.take 4096 ++ c.drop (c.length - 4096) ++ sizeBytes size) := by
  have hguard : ¬ (c.length < 4096) := by omega
  simp only [get_file_hash]
  rw [if_pos ⟨by trivial, hgt⟩, if_neg hguard]

theorem foldl_append_eq_flatten {α β : Type} (f : α → List β) (L : List α) :
    ∀ acc : List β, L.foldl (fun a p => a ++ f p) acc = acc ++ (L.map f).flatten := by
  induction L with
  | nil =>
    intro acc
    simp
  | cons p rest ih =>
    intro acc
    rw [List.foldl_cons, ih, List.map_cons, List.flatten_cons, List.append_assoc]

theorem filesToRemoveDup_eq (dups : List (Bytes × List FileRec)) :
    filesToRemoveDup dups =
      (dups.map (fun p => (p.2.drop 1).map FileRec.path)).flatten := by
  have h := foldl_append_eq_flatten
    (fun p : Bytes × List FileRec => (p.2.drop 1).map FileRec.path) dups []
  simpa [filesToRemoveDup] using h

theorem scanDuplicates_facts (fs : List FileRec) (h : Bytes) (G : List FileRec)
    (hmem : (h, G) ∈ scanDuplicates fs) :
    (∀ r ∈ G, r ∈ fs ∧ get_file_hash r.ent true = some h) ∧
    ((fs.map FileRec.path).Nodup → (G.map FileRec.path).Nodup) := by
  obtain ⟨s, files, g, hsz, hfl, hhg, hgl, hGeq⟩ := scanDuplicates_mem fs h G hmem
  have hgchar := (mem_hashGroups files h g).mp hhg
  have hsz2 : (s, files) ∈ groupByKey (fun r => r.size) (fs.filter dupCandidate) := hsz
  have hschar := (mem_groupByKey (fun r => r.size) (fs.filter dupCandidate) s files).mp hsz2
  have hsubg : List.Sublist g fs := by
    rw [hgchar.1, hschar.1]
    exact ((List.filter_sublist _).trans (List.filter_sublist _)).trans (List.filter_sublist _)
  constructor
  · intro r hr
    have hrg : r ∈ g := by
      rw [hGeq] at hr
      exact (mem_sortByMtimeDesc g r).mp hr
    constructor
    · exact hsubg.subset hrg
    · have hrfil : r ∈ files.filter (fun r2 => decide (get_file_hash r2.ent true = some h)) := by
        rw [← hgchar.1]
        exact hrg
      exact of_decide_eq_true (List.mem_filter.mp hrfil).2
  · intro hnd
    have h1 : (g.map FileRec.path).Nodup := hnd.sublist (hsubg.map FileRec.path)
    have h2 : List.Perm (G.map FileRec.path) (g.map FileRec.path) := by
      rw [hGeq]
      exact (perm_sortS _ g).map FileRec.path
    exact h2.nodup_iff.mpr h1

/-! ### The claims -/

/-- Claim C1: duplicate detection considers exactly the files of size
strictly greater than 1024 bytes that are not junk; size groups are exact,
fingerprints are quick-mode, and every group of the returned duplicates
mapping has at least two members, all drawn from the input, all sharing one
byte size and one digest — so a file of 1024 bytes or less is never in any
group. -/
theorem claim_C1 (fs : List FileRec) (h : Bytes) (G : List FileRec)
    (hmem : (h, G) ∈ scanDuplicates fs) :
    2 ≤ G.length ∧
    ∀ r ∈ G, r ∈ fs ∧ 1024 < r.size ∧ is_junk_file r.name = false ∧
      get_file_hash r.ent true = some h ∧ ∀ x ∈ G, x.size = r.size := by
  obtain ⟨s, files, g, hsz, hfl, hhg, hgl, hGeq⟩ := scanDuplicates_mem fs h G hmem
  have hgchar := (mem_hashGroups files h g).mp hhg
  have hsz2 : (s, files) ∈ groupByKey (fun r => r.size) (fs.filter dupCandidate) := hsz
  have hschar := (mem_groupByKey (fun r => r.size) (fs.filter dupCandidate) s files).mp hsz2
  have key : ∀ y ∈ G, y ∈ fs ∧ 1024 < y.size ∧ is_junk_file y.name = false ∧
      get_file_hash y.ent true = some h ∧ y.size = s := by
    intro y hy
    have hyg : y ∈ g := by
      rw [hGeq] at hy
      exact (mem_sortByMtimeDesc g y).mp hy
    have hyfil : y ∈ files.filter (fun r => decide (get_file_hash r.ent true = some h)) := by
      rw [← hgchar.1]
      exact hyg
    rcases List.mem_filter.mp hyfil with ⟨hyfiles, hyhash⟩
    have hyfil2 : y ∈ (fs.filter dupCandidate).filter (fun a => decide (a.size = s)) := by
      rw [← hschar.1]
      exact hyfiles
    rcases List.mem_filter.mp hyfil2 with ⟨hycand, hysize⟩
    rcases List.mem_filter.mp hycand with ⟨hyfs, hydup⟩
    rcases (dupCandidate_iff y).mp hydup with ⟨hsize, hjunk⟩
    exact ⟨hyfs, hsize, hjunk, of_decide_eq_true hyhash, of_decide_eq_true hysize⟩
  constructor
  · have hlen : G.length = g.length := by
      rw [hGeq]
      exact (perm_sortS _ g).length_eq
    omega
  · intro r hr
    obtain ⟨h1, h2, h3, h4, h5⟩ := key r hr
    refine ⟨h1, h2, h3, h4, ?_⟩
    intro x hx
    obtain ⟨_, _, _, _, h5x⟩ := key x hx
    rw [h5x, h5]

/-- Witness for C1 on a concrete two-file filesystem. -/
theorem claim_C1_witness :
    2 ≤ ([wRecB, wRecA] : List FileRec).length ∧ wRecB ∈ [wRecA, wRecB] ∧
    1024 < wRecB.size ∧ is_junk_file wRecB.name = false ∧
    get_file_hash wRecB.ent true = some [1, 2] ∧ wRecA.size = wRecB.size := by
  have h := claim_C1 [wRecA, wRecB] [1, 2] [wRecB, wRecA] (by decide)
  obtain ⟨h1, h2⟩ := h
  obtain ⟨ha, hb, hc, hd, he⟩ := h2 wRecB (by decide)
  exact ⟨h1, ha, hb, hc, hd, he wRecA (by decide)⟩

/-- Claim C2: files of at most 8192 bytes are fully hashed (in 64KB chunks)
regardless of quick mode; larger files in quick mode hash the first 4096
bytes, the last 4096 bytes and the decimal size string, in that order, so
two large files agreeing on size and both 4KB edges get equal quick
fingerprints even with different middles. -/
theorem claim_C2 :
    (∀ (nm : String) (size : Nat) (mt : Int) (c : Bytes) (quick : Bool),
      size ≤ 8192 → get_file_hash ⟨nm, some (size, mt), some c⟩ quick = some c) ∧
    (∀ (nm : String) (size : Nat) (mt : Int) (c : Bytes),
      8192 < size → c.length = size →
      get_file_hash ⟨nm, some (size, mt), some c⟩ true =
        some (c.take 4096 ++ c.drop (c.length - 4096) ++ sizeBytes size)) ∧
    (∀ (nm1 nm2 : String) (size : Nat) (mt1 mt2 : Int) (c1 c2 : Bytes),
      8192 < size → c1.length = size → c2.length = size →
      c1.take 4096 = c2.take 4096 → c1.drop (size - 4096) = c2.drop (size - 4096) →
      get_file_hash ⟨nm1, some (size, mt1), some c1⟩ true =
        get_file_hash ⟨nm2, some (size, mt2), some c2⟩ true) := by
  refine ⟨?_, ?_, ?_⟩
  · exact fun nm size mt c quick hle => get_file_hash_full nm size mt c quick hle
  · exact fun nm size mt c hgt hlen => get_file_hash_quick nm size mt c hgt hlen
  · intro nm1 nm2 size mt1 mt2 c1 c2 hgt h1 h2 ht hdp
    rw [get_file_hash_quick nm1 size mt1 c1 hgt h1,
      get_file_hash_quick nm2 size mt2 c2 hgt h2, h1, h2, ht, hdp]

/-- Witness for C2: two 9193-byte files with equal 4KB edges but different
middles get the same quick fingerprint. -/
theorem claim_C2_witness :
    get_file_hash ⟨"big1.bin", some (9193, 10), some wC2c1⟩ true =
      get_file_hash ⟨"big2.bin", some (9193, 20), some wC2c2⟩ true ∧
    wC2c1 ≠ wC2c2 := by
  have hlen1 : wC2c1.length = 9193 := by
    unfold wC2c1
    rw [List.length_append, List.length_append, List.length_replicate,
      List.length_replicate, List.length_replicate]
  have hlen2 : wC2c2.length = 9193 := by
    unfold wC2c2
    rw [List.length_append, List.length_append, List.length_replicate,
      List.length_replicate, List.length_replicate]
  have htake : wC2c1.take 4096 = wC2c2.take 4096 := by
    unfold wC2c1 wC2c2
    rw [List.append_assoc, List.append_assoc,
      List.take_left' (List.length_replicate 4096 1),
      List.take_left' (List.length_replicate 4096 1)]
  have hdrop : wC2c1.drop (9193 - 4096) = wC2c2.drop (9193 - 4096) := by
    show wC2c1.drop 5097 = wC2c2.drop 5097
    unfold wC2c1 wC2c2
    rw [List.drop_left' (by rw [List.length_append, List.length_replicate,
        List.length_replicate]),
      List.drop_left' (by rw [List.length_append, List.length_replicate,
        List.length_replicate])]
  have hne : wC2c1 ≠ wC2c2 := by
    intro hcontra
    have h1 := congrArg (List.drop 4096) hcontra
    unfold wC2c1 wC2c2 at h1
    rw [List.append_assoc, List.append_assoc,
      List.drop_left' (List.length_replicate 4096 1),
      List.drop_left' (List.length_replicate 4096 1)] at h1
    have h3 := List.append_cancel_right h1
    have h5 : List.replicate 1001 (5 : Nat) = 5 :: List.replicate 1000 5 := rfl
    have h6 : List.replicate 1001 (9 : Nat) = 9 :: List.replicate 1000 9 := rfl
    rw [h5, h6] at h3
    have hhead := congrArg List.headI h3
    exact (by decide : (5 : Nat) ≠ 9) hhead
  exact ⟨claim_C2.2.2 "big1.bin" "big2.bin" 9193 10 20 wC2c1 wC2c2 (by decide) hlen1 hlen2
    htake hdrop, hne⟩

/-- Claim C3: every duplicate group is ordered newest-first by modification
time (the head's mtime bounds every member's), and members with any fixed
modification time appear as a sublist of the scan's encounter order — the
stable-sort tie-break of the source. -/
theorem claim_C3 (fs : List FileRec) (h : Bytes) (G : List FileRec)
    (hmem : (h, G) ∈ scanDuplicates fs) :
    G.Pairwise (fun a b => b.mtime ≤ a.mtime) ∧
    (∀ hd, G.head? = some hd → ∀ x ∈ G, x.mtime ≤ hd.mtime) ∧
    (∀ t : Int, List.Sublist (G.filter (fun r => decide (r.mtime = t))) fs) := by
  obtain ⟨s, files, g, hsz, hfl, hhg, hgl, hGeq⟩ := scanDuplicates_mem fs h G hmem
  have hgchar := (mem_hashGroups files h g).mp hhg
  have hsz2 : (s, files) ∈ groupByKey (fun r => r.size) (fs.filter dupCandidate) := hsz
  have hschar := (mem_groupByKey (fun r => r.size) (fs.filter dupCandidate) s files).mp hsz2
  have htot : ∀ a b : FileRec, decide (b.mtime ≤ a.mtime) = false →
      decide (a.mtime ≤ b.mtime) = true := by
    intro a b hab
    exact decide_eq_true (le_of_not_le (of_decide_eq_false hab))
  have htrans : ∀ a b c : FileRec, decide (b.mtime ≤ a.mtime) = true →
      decide (c.mtime ≤ b.mtime) = true → decide (c.mtime ≤ a.mtime) = true := by
    intro a b c h1 h2
    exact decide_eq_true (le_trans (of_decide_eq_true h2) (of_decide_eq_true h1))
  have hpw : G.Pairwise (fun a b => decide (b.mtime ≤ a.mtime) = true) := by
    rw [hGeq]
    exact pairwise_sortS _ htot htrans g
  refine ⟨hpw.imp (fun hab => of_decide_eq_true hab), ?_, ?_⟩
  · intro hd hhd x hx
    cases G with
    | nil => cases hhd
    | cons y ys =>
      have hyhd : y = hd := by simpa using hhd
      subst hyhd
      rcases List.pairwise_cons.mp hpw with ⟨hhead, _⟩
      rcases List.mem_cons.mp hx with rfl | hx2
      · exact le_refl _
      · exact of_decide_eq_true (hhead x hx2)
  · intro t
    have hstab : G.filter (fun r => decide (r.mtime = t)) =
        g.filter (fun r => decide (r.mtime = t)) := by
      rw [hGeq]
      refine filter_sortS _ _ ?_ g
      intro a b ha hb
      have ha2 : a.mtime = t := of_decide_eq_true ha
      have hb2 : b.mtime = t := of_decide_eq_true hb
      exact decide_eq_true (by rw [ha2, hb2])
    rw [hstab]
    have s1 : List.Sublist (g.filter (fun r => decide (r.mtime = t))) g :=
      List.filter_sublist g
    have s2 : List.Sublist g files := by
      rw [hgchar.1]
      exact List.filter_sublist files
    have s3 : List.Sublist files (fs.filter dupCandidate) := by
      rw [hschar.1]
      exact List.filter_sublist _
    have s4 : List.Sublist (fs.filter dupCandidate) fs := List.filter_sublist fs
    exact ((s1.trans s2).trans s3).trans s4

/-- Witness for C3: in the concrete group [wRecB, wRecA], the kept head is
at least as new as the other member, and equal-mtime members keep scan
order. -/
theorem claim_C3_witness :
    wRecA.mtime ≤ wRecB.mtime ∧
    List.Sublist (([wRecB, wRecA] : List FileRec).filter (fun r => decide (r.mtime = 100)))
      [wRecA, wRecB] := by
  have h := claim_C3 [wRecA, wRecB] [1, 2] [wRecB, wRecA] (by decide)
  exact ⟨h.2.1 wRecB rfl wRecA (by decide), h.2.2 100⟩

/-- Claim C4: per-file classification priority: zero size goes to
EmptyFiles only; otherwise junk goes to JunkFiles only; otherwise the large
test (size at least the threshold) and the old test (mtime strictly below
the old threshold) are evaluated independently, so a file can be in both
LargeFiles and OldFiles; a zero-byte junk-named file lands in EmptyFiles,
not JunkFiles. -/
theorem claim_C4 (cfg : Config) (parts : List String) (st : ScanState)
    (f : FileEnt) (size : Nat) (mt : Int) (hstat : f.stat = some (size, mt)) :
    (size = 0 →
      (processFile cfg parts st f).empty_files = st.empty_files ++ [parts ++ [f.name]] ∧
      (processFile cfg parts st f).junk_files = st.junk_files ∧
      (processFile cfg parts st f).large_files = st.large_files ∧
      (processFile cfg parts st f).old_files = st.old_files) ∧
    (size ≠ 0 → is_junk_file f.name = true →
      (processFile cfg parts st f).junk_files = st.junk_files ++ [parts ++ [f.name]] ∧
      (processFile cfg parts st f).empty_files = st.empty_files ∧
      (processFile cfg parts st f).large_files = st.large_files ∧
      (processFile cfg parts st f).old_files = st.old_files) ∧
    (size ≠ 0 → is_junk_file f.name = false →
      (processFile cfg parts st f).empty_files = st.empty_files ∧
      (processFile cfg parts st f).junk_files = st.junk_files ∧
      ((processFile cfg parts st f).large_files =
        if cfg.large_threshold ≤ (size : Int)
        then st.large_files ++ [(parts ++ [f.name], size)] else st.large_files) ∧
      ((processFile cfg parts st f).old_files =
        if mt < cfg.old_threshold
        then st.old_files ++ [(parts ++ [f.name], mt)] else st.old_files)) := by
  refine ⟨?_, ?_, ?_⟩
  · intro hz
    subst hz
    simp only [processFile, hstat]
    rw [if_pos trivial]
    exact ⟨rfl, rfl, rfl, rfl⟩
  · intro hz hj
    simp only [processFile, hstat]
    rw [if_neg hz, if_pos hj]
    exact ⟨rfl, rfl, rfl, rfl⟩
  · intro hz hj
    simp only [processFile, hstat]
    rw [if_neg hz, if_neg (by rw [hj]; exact Bool.false_ne_true)]
    refine ⟨?_, ?_, ?_, ?_⟩ <;> split_ifs <;> rfl

/-- Witness for C4: a zero-byte file named `.DS_Store` (junk-named) is
classified as empty, not junk. -/
theorem claim_C4_witness :
    (processFile cfg0 ["home", "u"] initState ⟨".DS_Store", some (0, 5), some []⟩).empty_files
      = initState.empty_files ++ [["home", "u"] ++ [".DS_Store"]] ∧
    (processFile cfg0 ["home", "u"] initState ⟨".DS_Store", some (0, 5), some []⟩).junk_files
      = initState.junk_files ∧
    (processFile cfg0 ["home", "u"] initState ⟨".DS_Store", some (0, 5), some []⟩).large_files
      = initState.large_files ∧
    (processFile cfg0 ["home", "u"] initState ⟨".DS_Store", some (0, 5), some []⟩).old_files
      = initState.old_files :=
  (claim_C4 cfg0 ["home", "u"] initState ⟨".DS_Store", some (0, 5), some []⟩ 0 5 rfl).1 rfl

/-- Claim C5: the files selected for removal in the duplicates category are
exactly the concatenation, over the groups in order, of each group's members
except the first, and (for records with distinct paths, as a real walk
produces) the kept head of a group is never selected. -/
theorem claim_C5 (fs : List FileRec) (hnd : (fs.map FileRec.path).Nodup) :
    filesToRemoveDup (scanDuplicates fs) =
      ((scanDuplicates fs).map (fun p => (p.2.drop 1).map FileRec.path)).flatten ∧
    ∀ h G hd, (h, G) ∈ scanDuplicates fs → G.head? = some hd →
      hd.path ∉ filesToRemoveDup (scanDuplicates fs) := by
  refine ⟨filesToRemoveDup_eq _, ?_⟩
  intro h G hd hmem hhd hcontra
  rw [filesToRemoveDup_eq] at hcontra
  rcases List.mem_flatten.mp hcontra with ⟨l, hl, hpl⟩
  rcases List.mem_map.mp hl with ⟨p, hpdups, rfl⟩
  rcases List.mem_map.mp hpl with ⟨r, hrdrop, hrpath⟩
  have hG := scanDuplicates_facts fs h G hmem
  have hp2 : (p.1, p.2) ∈ scanDuplicates fs := hpdups
  have hP := scanDuplicates_facts fs p.1 p.2 hp2
  have hdG : hd ∈ G := by
    cases G with
    | nil => cases hhd
    | cons y ys =>
      have hy : y = hd := by simpa using hhd
      rw [← hy]
      exact List.mem_cons_self y ys
  have hrp2 : r ∈ p.2 := (List.drop_sublist 1 p.2).subset hrdrop
  obtain ⟨hdfs, hdhash⟩ := hG.1 hd hdG
  obtain ⟨hrfs, hrhash⟩ := hP.1 r hrp2
  by_cases hkey : p.1 = h
  · have hPG : p.2 = G := by
      refine eq_of_mem_nodupKeys (scanDuplicates fs) (nodupKeys_scanDuplicates fs) h _ _ ?_ hmem
      rw [← hkey]
      exact hp2
    have hGnodup : (G.map FileRec.path).Nodup := hG.2 hnd
    cases G with
    | nil => cases hhd
    | cons y ys =>
      have hy : y = hd := by simpa using hhd
      rw [hPG] at hrdrop
      have hrys : r ∈ ys := by simpa using hrdrop
      have hsplit : y.path ∉ ys.map FileRec.path ∧ (ys.map FileRec.path).Nodup := by
        rw [List.map_cons, List.nodup_cons] at hGnodup
        exact hGnodup
      apply hsplit.1
      rw [hy, ← hrpath]
      exact List.mem_map.mpr ⟨r, hrys, rfl⟩
  · have hreq : r = hd := by
      have hinj := List.inj_on_of_nodup_map hnd
      exact hinj hrfs hdfs hrpath
    rw [hreq] at hrhash
    exact hkey (Option.some_inj.mp (hrhash.symm.trans hdhash))

/-- Witness for C5 on the concrete two-file duplicate group: the removal
list is the flattened tails, and the kept head's path is not selected. -/
theorem claim_C5_witness :
    filesToRemoveDup (scanDuplicates [wRecA, wRecB]) =
      ((scanDuplicates [wRecA, wRecB]).map (fun p => (p.2.drop 1).map FileRec.path)).flatten ∧
    wRecB.path ∉ filesToRemoveDup (scanDuplicates [wRecA, wRecB]) := by
  have h := claim_C5 [wRecA, wRecB] (by decide)
  exact ⟨h.1, h.2 [1, 2] [wRecB, wRecA] wRecB (by decide) rfl⟩

/-- C6 counterexample: with the invalid configuration
`large_threshold_mb = -1` (a negative threshold) nothing is surfaced and the
scan is not fatal: it completes, counts the file, and classifies the 10-byte
file as "large" against the negative threshold — contradicting the claim
that invalid configuration is surfaced before scanning and fails fast. -/
theorem claim_C6_counterexample :
    (mkScanner (-1) 120 1000000).large_threshold < 0 ∧
    (scanTree (mkScanner (-1) 120 1000000) ["home", "u"] (some ([], [entC6]))).files_scanned = 1 ∧
    (scanTree (mkScanner (-1) 120 1000000) ["home", "u"] (some ([], [entC6]))).large_files =
      [(["home", "u", "report.pdf"], 10)] :=
  ⟨by decide, by decide, by decide⟩

/-- Claim C6 (amended): the scanner performs no configuration validation and
never fails fast: a nonexistent root produces the empty result (os.walk
yields nothing) rather than an error, and a negative large threshold is
accepted, making every successfully statted non-empty non-junk file a
"large" file. -/
theorem claim_C6 :
    (∀ (cfg : Config) (rootParts : List String), scanTree cfg rootParts none = initState) ∧
    (∀ (mb days now : Int) (parts : List String) (st : ScanState) (f : FileEnt)
      (size : Nat) (mt : Int),
      mb < 0 → f.stat = some (size, mt) → size ≠ 0 → is_junk_file f.name = false →
      (parts ++ [f.name], size) ∈
        (processFile (mkScanner mb days now) parts st f).large_files) := by
  constructor
  · intro cfg rootParts
    rfl
  · intro mb days now parts st f size mt hmb hstat hsz hj
    have hth : (mkScanner mb days now).large_threshold ≤ (size : Int) := by
      show mb * 1024 * 1024 ≤ (size : Int)
      have hsize : (0 : Int) ≤ (size : Int) := Int.natCast_nonneg size
      nlinarith
    simp only [processFile, hstat]
    rw [if_neg hsz, if_neg (by rw [hj]; exact Bool.false_ne_true), if_pos hth]
    split_ifs with hmt <;>
      exact List.mem_append.mpr (Or.inr (List.mem_singleton.mpr rfl))

/-- Witness for C6 (amended): a nonexistent root gives the empty result, and
with `large_threshold_mb = -1` the 10-byte file is classified large. -/
theorem claim_C6_witness :
    scanTree cfg0 ["home", "u"] none = initState ∧
    (["home", "u"] ++ [entC6.name], 10) ∈
      (processFile (mkScanner (-1) 120 1000000) ["home", "u"] initState entC6).large_files :=
  ⟨claim_C6.1 cfg0 ["home", "u"],
   claim_C6.2 (-1) 120 1000000 ["home", "u"] initState entC6 10 100 (by decide) rfl
     (by decide) (by decide)⟩

/-- Claim C7: a fingerprinting I/O failure (failed stat or failed read)
makes `get_file_hash` return the failure value instead of raising, and such
a file is silently dropped by the duplicate resolver: it appears in no
duplicate group of any scan (and a fortiori never as a match or a singleton
group); the resolver itself is a total function and cannot crash. -/
theorem claim_C7 :
    (∀ (f : FileEnt) (quick : Bool), f.stat = none ∨ f.dat = none →
      get_file_hash f quick = none) ∧
    (∀ (fs : List FileRec) (r : FileRec) (h : Bytes) (G : List FileRec),
      get_file_hash r.ent true = none → (h, G) ∈ scanDuplicates fs → r ∉ G) := by
  constructor
  · intro f quick hf
    rcases hf with hf | hf
    · simp [get_file_hash, hf]
    · cases hstat : f.stat with
      | none => simp [get_file_hash, hstat]
      | some p =>
        obtain ⟨size, mt⟩ := p
        simp [get_file_hash, hstat, hf]
  · intro fs r h G hr hmem hrG
    obtain ⟨s, files, g, hsz, hfl, hhg, hgl, hGeq⟩ := scanDuplicates_mem fs h G hmem
    rw [hGeq] at hrG
    have hrg : r ∈ g := (mem_sortByMtimeDesc g r).mp hrG
    have hchar := (mem_hashGroups files h g).mp hhg
    rw [hchar.1] at hrg
    have hmem2 := List.mem_filter.mp hrg
    have h2 : get_file_hash r.ent true = some h := of_decide_eq_true hmem2.2
    rw [hr] at h2
    cases h2

/-- Witness for C7: the unreadable file `wbad.bin` (same 2000-byte size
group as the two duplicates) gets a failure fingerprint and is not in the
one duplicate group the resolver returns. -/
theorem claim_C7_witness :
    get_file_hash wEntBad true = none ∧ wRecBad ∉ [wRecB, wRecA] :=
  ⟨claim_C7.1 wEntBad true (Or.inr rfl),
   claim_C7.2 [wRecA, wRecB, wRecBad] wRecBad [1, 2] [wRecB, wRecA] rfl (by decide)⟩

/-- C8 counterexample: in the tree r/a/b, with b empty and not skip-listed,
every descendant of `a` is "filtered or empty", yet only `b` is reported as
an empty directory — `a` is not, contradicting the claim that a directory
whose every descendant is filtered or empty is reported as empty. -/
theorem claim_C8_counterexample :
    (scanTree cfg0 ["r"] (some (cxC8Tree, []))).empty_dirs = [["r", "a", "b"]] ∧
    ["r", "a"] ∉ (scanTree cfg0 ["r"] (some (cxC8Tree, []))).empty_dirs :=
  ⟨by decide, by decide⟩

/-- Claim C8 (amended): a visited (non-skipped) directory is recorded as
empty exactly when it has no files and, after removing skip-listed names,
no subdirectories; a directory whose only children are skip-listed counts as
empty, but a directory with a retained subdirectory is not reported even if
that subdirectory is itself empty. -/
theorem claim_C8 (cfg : Config) (parts : List String) (nm : String)
    (subdirs : List Dir) (files : List FileEnt) (st : ScanState)
    (h : should_skip parts = false) :
    parts ∈ (visit cfg parts (Dir.mk nm subdirs files) st).empty_dirs ↔
      (parts ∈ st.empty_dirs ∨
        (files = [] ∧ subdirs.filter (fun c => !(SKIP_DIRS.contains c.name)) = [])) := by
  rw [visit_eq cfg parts nm subdirs files st h]
  by_cases hcond : ((subdirs.filter fun c => !(SKIP_DIRS.contains c.name)).isEmpty
      && files.isEmpty) = true
  · rw [if_pos hcond]
    obtain ⟨L2, hL2, hlen2⟩ := (empty_dirs_extend (sizeOf subdirs)).2 cfg parts subdirs
      (files.foldl (processFile cfg parts)
        { st with dirs_scanned := st.dirs_scanned + 1,
                  empty_dirs := st.empty_dirs ++ [parts] }) (Nat.le_refl _)
    rw [hL2, foldl_processFile_empty_dirs]
    have hc2 : files = [] ∧ subdirs.filter (fun c => !(SKIP_DIRS.contains c.name)) = [] := by
      rw [Bool.and_eq_true] at hcond
      exact ⟨List.isEmpty_iff.mp hcond.2, List.isEmpty_iff.mp hcond.1⟩
    have hmem2 : parts ∈ (st.empty_dirs ++ [parts]) ++ L2 :=
      List.mem_append.mpr (Or.inl (List.mem_append.mpr (Or.inr (List.mem_singleton.mpr rfl))))
    constructor
    · intro _
      exact Or.inr hc2
    · intro _
      exact hmem2
  · rw [if_neg hcond]
    obtain ⟨L2, hL2, hlen2⟩ := (empty_dirs_extend (sizeOf subdirs)).2 cfg parts subdirs
      (files.foldl (processFile cfg parts)
        { st with dirs_scanned := st.dirs_scanned + 1 }) (Nat.le_refl _)
    rw [hL2, foldl_processFile_empty_dirs]
    have hc2 : ¬ (files = [] ∧ subdirs.filter (fun c => !(SKIP_DIRS.contains c.name)) = []) := by
      rintro ⟨h1, h2⟩
      apply hcond
      rw [Bool.and_eq_true]
      exact ⟨List.isEmpty_iff.mpr h2, List.isEmpty_iff.mpr h1⟩
    constructor
    · intro hmemx
      have hmem3 : parts ∈ st.empty_dirs ++ L2 := hmemx
      rcases List.mem_append.mp hmem3 with hm | hm
      · exact Or.inl hm
      · exfalso
        have hq := hlen2 parts hm
        omega
    · rintro (hm | hm)
      · exact List.mem_append.mpr (Or.inl hm)
      · exact absurd hm hc2

/-- Witness for C8 (amended): a directory whose only child is the
skip-listed `Library` counts as empty. -/
theorem claim_C8_witness :
    ["r"] ∈ (visit cfg0 ["r"] (Dir.mk "r" [Dir.mk "Library" [] []] []) initState).empty_dirs ↔
      (["r"] ∈ initState.empty_dirs ∨
        (([] : List FileEnt) = [] ∧
          ([Dir.mk "Library" [] []] : List Dir).filter
            (fun c => !(SKIP_DIRS.contains c.name)) = [])) :=
  claim_C8 cfg0 ["r"] "r" [Dir.mk "Library" [] []] [] initState (by decide)

/-- C9 counterexample: on the literal scenario tree (a.txt and b.txt of 10
bytes with content "hello", c.tmp empty) the scan yields NO duplicate group
— 10-byte files are at or below the strict 1024-byte duplicate threshold —
while c.tmp is in EmptyFiles and no junk is reported. -/
theorem claim_C9_counterexample :
    (scanTree cfg0 ["home", "u"] (some ([], [entA9, entB9, entC9]))).duplicates = [] ∧
    (scanTree cfg0 ["home", "u"] (some ([], [entA9, entB9, entC9]))).empty_files =
      [["home", "u", "c.tmp"]] ∧
    (scanTree cfg0 ["home", "u"] (some ([], [entA9, entB9, entC9]))).junk_files = [] :=
  ⟨by decide, by decide, by decide⟩

/-- Claim C9 (amended): the literal 10-byte scenario yields no duplicate
group, c.tmp in EmptyFiles and zero junk; enlarging a.txt and b.txt to
statted size 2000 with identical contents (above the 1024-byte threshold)
yields exactly one duplicate group [b.txt, a.txt] with the newer b.txt
kept, and only a.txt selected for removal. -/
theorem claim_C9 :
    (scanTree cfg0 ["home", "u"] (some ([], [entA9, entB9, entC9]))).duplicates = [] ∧
    (scanTree cfg0 ["home", "u"] (some ([], [entA9b, entB9b, entC9]))).duplicates =
      [(bigContent, [recB9b, recA9b])] ∧
    (scanTree cfg0 ["home", "u"] (some ([], [entA9b, entB9b, entC9]))).empty_files =
      [["home", "u", "c.tmp"]] ∧
    (scanTree cfg0 ["home", "u"] (some ([], [entA9b, entB9b, entC9]))).junk_files = [] ∧
    filesToRemoveDup (scanTree cfg0 ["home", "u"]
      (some ([], [entA9b, entB9b, entC9]))).duplicates = [["home", "u", "a.txt"]] :=
  ⟨by decide, by decide, by decide, by decide, by decide⟩

/-- Claim C10: `should_skip` tests every component of the path, including
those above the scan root, so a scan whose root path contains a denylisted
segment prunes everything: all six category buckets come back empty and
zero directories are counted. -/
theorem claim_C10 (cfg : Config) (rootParts : List String) (ds : List Dir)
    (fs : List FileEnt) (p : String) (hp : p ∈ rootParts)
    (hskip : SKIP_DIRS.contains p = true) :
    should_skip rootParts = true ∧
    (scanTree cfg rootParts (some (ds, fs))).duplicates = [] ∧
    (scanTree cfg rootParts (some (ds, fs))).empty_files = [] ∧
    (scanTree cfg rootParts (some (ds, fs))).empty_dirs = [] ∧
    (scanTree cfg rootParts (some (ds, fs))).junk_files = [] ∧
    (scanTree cfg rootParts (some (ds, fs))).large_files = [] ∧
    (scanTree cfg rootParts (some (ds, fs))).old_files = [] ∧
    (scanTree cfg rootParts (some (ds, fs))).dirs_scanned = 0 := by
  have hss : should_skip rootParts = true := by
    rw [should_skip, List.any_eq_true]
    exact ⟨p, hp, hskip⟩
  have hscan : scanTree cfg rootParts (some (ds, fs)) = initState := by
    simp only [scanTree]
    rw [visit_skip cfg rootParts _ initState hss]
    rfl
  rw [hscan]
  exact ⟨hss, rfl, rfl, rfl, rfl, rfl, rfl, rfl⟩

/-- Witness for C10: scanning a root below a directory named `Library`
returns a completely empty result. -/
theorem claim_C10_witness :
    should_skip ["Users", "me", "Library", "docs"] = true ∧
    (scanTree cfg0 ["Users", "me", "Library", "docs"] (some (cxC8Tree, [entC6]))).duplicates = [] ∧
    (scanTree cfg0 ["Users", "me", "Library", "docs"] (some (cxC8Tree, [entC6]))).empty_files = [] ∧
    (scanTree cfg0 ["Users", "me", "Library", "docs"] (some (cxC8Tree, [entC6]))).empty_dirs = [] ∧
    (scanTree cfg0 ["Users", "me", "Library", "docs"] (some (cxC8Tree, [entC6]))).junk_files = [] ∧
    (scanTree cfg0 ["Users", "me", "Library", "docs"] (some (cxC8Tree, [entC6]))).large_files = [] ∧
    (scanTree cfg0 ["Users", "me", "Library", "docs"] (some (cxC8Tree, [entC6]))).old_files = [] ∧
    (scanTree cfg0 ["Users", "me", "Library", "docs"] (some (cxC8Tree, [entC6]))).dirs_scanned = 0 :=
  claim_C10 cfg0 ["Users", "me", "Library", "docs"] cxC8Tree [entC6] "Library"
    (by decide) (by decide)

end Cleanup
